import Mathlib

/-!
Verification of the search-and-evaluation engine of `chess_ai.py`
(class `ChessAI`): static evaluation (`evaluate_board`,
`evaluate_pawn_structure`, `evaluate_mobility`), depth-limited
alpha-beta search (`alpha_beta_search`) and root move selection
(`find_best_move`).

The external rules engine (python-chess) is modelled by an abstract
interface `RulesEngine` carrying the documented guarantees the code
relies on (pushing a move flips the side to move, the terminal
predicates are mutually consistent).  Scores are modelled as
rationals extended with the two infinities (`math.inf` sentinels);
the only operations the code performs on scores are comparisons,
`max` and `min`, so this is faithful to the Python numerics used by
the search.  The mutable board with its `push`/`pop` protocol is
modelled as a base position plus an explicit stack of pushed moves.
-/

/-- Scores: `math.inf` / `-math.inf` sentinels around a finite numeric value. -/
abbrev Score := WithBot (WithTop ℚ)

/-- A finite score (an ordinary number, neither infinity). -/
def Score.fin (q : ℚ) : Score := ((q : WithTop ℚ) : WithBot (WithTop ℚ))

/-- The chess piece kinds, in the iteration order of the `piece_values`
dictionary of the source (`PAWN, KNIGHT, BISHOP, ROOK, QUEEN, KING`). -/
inductive Piece where
  | pawn
  | knight
  | bishop
  | rook
  | queen
  | king
deriving DecidableEq

/-- The `piece_values` table of `ChessAI.__init__`. -/
def piece_values : Piece → Int
  | .pawn => 100
  | .knight => 320
  | .bishop => 330
  | .rook => 500
  | .queen => 900
  | .king => 20000

/-- Iteration order of the `piece_values` dictionary. -/
def pieceTypesList : List Piece := [.pawn, .knight, .bishop, .rook, .queen, .king]

/-- The `piece_square_tables` of `ChessAI.__init__`, transcribed verbatim. -/
def piece_square_tables : Piece → List Int
  | .pawn =>
      [0, 0, 0, 0, 0, 0, 0, 0,
       5, 10, 10, -20, -20, 10, 10, 5,
       5, -5, -10, 0, 0, -10, -5, 5,
       0, 0, 0, 20, 20, 0, 0, 0,
       5, 5, 10, 25, 25, 10, 5, 5,
       10, 10, 20, 30, 30, 20, 10, 10,
       50, 50, 50, 50, 50, 50, 50, 50,
       0, 0, 0, 0, 0, 0, 0, 0]
  | .knight =>
      [-50, -40, -30, -30, -30, -30, -40, -50,
       -40, -20, 0, 0, 0, 0, -20, -40,
       -30, 0, 10, 15, 15, 10, 0, -30,
       -30, 5, 15, 20, 20, 15, 5, -30,
       -30, 0, 15, 20, 20, 15, 0, -30,
       -30, 5, 10, 15, 15, 10, 5, -30,
       -40, -20, 0, 5, 5, 0, -20, -40,
       -50, -40, -30, -30, -30, -30, -40, -50]
  | .bishop =>
      [-20, -10, -10, -10, -10, -10, -10, -20,
       -10, 0, 0, 0, 0, 0, 0, -10,
       -10, 0, 5, 10, 10, 5, 0, -10,
       -10, 5, 5, 10, 10, 5, 5, -10,
       -10, 0, 10, 10, 10, 10, 0, -10,
       -10, 10, 10, 10, 10, 10, 10, -10,
       -10, 5, 0, 0, 0, 0, 5, -10,
       -20, -10, -10, -10, -10, -10, -10, -20]
  | .rook =>
      [0, 0, 0, 0, 0, 0, 0, 0,
       5, 10, 10, 10, 10, 10, 10, 5,
       -5, 0, 0, 0, 0, 0, 0, -5,
       -5, 0, 0, 0, 0, 0, 0, -5,
       -5, 0, 0, 0, 0, 0, 0, -5,
       -5, 0, 0, 0, 0, 0, 0, -5,
       -5, 0, 0, 0, 0, 0, 0, -5,
       0, 0, 0, 5, 5, 0, 0, 0]
  | .queen =>
      [-20, -10, -10, -5, -5, -10, -10, -20,
       -10, 0, 0, 0, 0, 0, 0, -10,
       -10, 0, 5, 5, 5, 5, 0, -10,
       -5, 0, 5, 5, 5, 5, 0, -5,
       0, 0, 5, 5, 5, 5, 0, -5,
       -10, 5, 5, 5, 5, 5, 0, -10,
       -10, 0, 5, 0, 0, 0, 0, -10,
       -20, -10, -10, -5, -5, -10, -10, -20]
  | .king =>
      [20, 30, 10, 0, 0, 10, 30, 20,
       20, 20, 0, 0, 0, 0, 20, 20,
       -10, -20, -20, -20, -20, -20, -20, -10,
       -20, -30, -30, -40, -40, -30, -30, -20,
       -30, -40, -40, -50, -50, -40, -40, -30,
       -30, -40, -40, -50, -50, -40, -40, -30,
       -30, -40, -40, -50, -50, -40, -40, -30,
       -30, -40, -40, -50, -50, -40, -40, -30]

/-- `pst[square]`: table lookup at a square index (0 = a1, ..., 63 = h8). -/
def pstAt (k : Piece) (s : Fin 64) : Int := (piece_square_tables k).getD s.val 0

/-- The external rules engine's `chess.square_mirror`: vertical mirror of a
square, flipping the rank and keeping the file (`square XOR 0x38`). -/
def square_mirror (s : Fin 64) : Fin 64 :=
  ⟨8 * (7 - s.val / 8) + s.val % 8, by omega⟩

/-- Sum of piece-square-table entries over the White pieces of one kind,
as accumulated by the `for square in white_pieces` loop of `evaluate_board`. -/
def pstWhiteSum (k : Piece) (w : Finset (Fin 64)) : Int :=
  w.sum (fun s => pstAt k s)

/-- Sum of mirrored piece-square-table entries over the Black pieces of one
kind, as accumulated by the `for square in black_pieces` loop of
`evaluate_board` (`pst[chess.square_mirror(square)]`). -/
def pstBlackSum (k : Piece) (b : Finset (Fin 64)) : Int :=
  b.sum (fun s => pstAt k (square_mirror s))

/-- The interface of the external rules engine (python-chess `Board`),
restricted to the queries the engine core uses, together with the
documented chess-rules guarantees the core relies on:
pushing a move flips the side to move; stalemate, insufficient material
and the 75-move rule each exclude checkmate; a position without legal
moves is game over; a checkmate position has no legal moves.
`turn` is `true` for White (`chess.WHITE == True`). -/
structure RulesEngine where
  Pos : Type
  Move : Type
  turn : Pos → Bool
  legal_moves : Pos → List Move
  push : Pos → Move → Pos
  is_checkmate : Pos → Bool
  is_stalemate : Pos → Bool
  is_insufficient_material : Pos → Bool
  is_seventyfive_moves : Pos → Bool
  is_game_over : Pos → Bool
  pieces : Pos → Piece → Bool → Finset (Fin 64)
  turn_push : ∀ p m, turn (push p m) = !turn p
  stalemate_not_checkmate : ∀ p, is_stalemate p = true → is_checkmate p = false
  insufficient_not_checkmate : ∀ p, is_insufficient_material p = true → is_checkmate p = false
  seventyfive_not_checkmate : ∀ p, is_seventyfive_moves p = true → is_checkmate p = false
  no_moves_game_over : ∀ p, legal_moves p = [] → is_game_over p = true
  checkmate_no_moves : ∀ p, is_checkmate p = true → legal_moves p = []

/-- The material-plus-positional accumulation of `evaluate_board`
(the `for piece_type in self.piece_values` loop). -/
def materialPstScore (E : RulesEngine) (p : E.Pos) : Int :=
  pieceTypesList.foldl (fun sc k =>
    sc + (E.pieces p k true).card * piece_values k
       - (E.pieces p k false).card * piece_values k
       + pstWhiteSum k (E.pieces p k true)
       - pstBlackSum k (E.pieces p k false)) 0

/-- `ChessAI.evaluate_pawn_structure`: per file, 10 points of penalty per
pawn beyond the first, subtracted for White duplicates and added for Black
duplicates, then negated when Black is to move. -/
def evaluate_pawn_structure (E : RulesEngine) (p : E.Pos) : Int :=
  let score := (List.range 8).foldl (fun sc f =>
    let wp := ((E.pieces p Piece.pawn true).filter (fun s => s.val % 8 = f)).card
    let bp := ((E.pieces p Piece.pawn false).filter (fun s => s.val % 8 = f)).card
    let sc2 := if 1 < wp then sc - 10 * ((wp : Int) - 1) else sc
    if 1 < bp then sc2 + 10 * ((bp : Int) - 1) else sc2) 0
  if E.turn p = true then score else -score

/-- `ChessAI.evaluate_mobility`: `0.1` per legal move of the side to move,
positive when White is to move, negative otherwise. -/
def evaluate_mobility (E : RulesEngine) (p : E.Pos) : ℚ :=
  if E.turn p = true then (1 / 10 : ℚ) * (E.legal_moves p).length
  else -((1 / 10 : ℚ) * (E.legal_moves p).length)

/-- `ChessAI.evaluate_board`. -/
def evaluate_board (E : RulesEngine) (p : E.Pos) : Score :=
  if E.is_checkmate p then (if E.turn p = true then (⊥ : Score) else ⊤)
  else if E.is_stalemate p || E.is_insufficient_material p || E.is_seventyfive_moves p then
    Score.fin 0
  else
    let raw : ℚ := ((materialPstScore E p + evaluate_pawn_structure E p : Int) : ℚ) +
      evaluate_mobility E p
    Score.fin (if E.turn p = true then raw else -raw)

/-- The maximizing branch's move loop in `alpha_beta_search`: running maximum
`maxEval`, running bound `alpha`, fixed `beta`; the recursive search on each
child is `recur`; the loop breaks as soon as `beta <= alpha` after an update. -/
def abLoopMax (E : RulesEngine) (recur : E.Pos → Score → Score → Score)
    (p : E.Pos) (beta : Score) :
    List E.Move → Score → Score → Score
  | [], maxEval, _alpha => maxEval
  | m :: ms, maxEval, alpha =>
    let ev := recur (E.push p m) alpha beta
    let maxEval2 := max maxEval ev
    let alpha2 := max alpha ev
    if beta ≤ alpha2 then maxEval2
    else abLoopMax E recur p beta ms maxEval2 alpha2

/-- The minimizing branch's move loop in `alpha_beta_search`: running minimum
`minEval`, running bound `beta`, fixed `alpha`. -/
def abLoopMin (E : RulesEngine) (recur : E.Pos → Score → Score → Score)
    (p : E.Pos) (alpha : Score) :
    List E.Move → Score → Score → Score
  | [], minEval, _beta => minEval
  | m :: ms, minEval, beta =>
    let ev := recur (E.push p m) alpha beta
    let minEval2 := min minEval ev
    let beta2 := min beta ev
    if beta2 ≤ alpha then minEval2
    else abLoopMin E recur p alpha ms minEval2 beta2

/-- `ChessAI.alpha_beta_search` on a position value: at depth `0` or a
game-over position return the static evaluation; otherwise run the
maximizing or minimizing move loop, recursing at `depth - 1` with the
opposite flag. -/
def alpha_beta_search (E : RulesEngine) : Nat → E.Pos → Score → Score → Bool → Score
  | 0 => fun p _alpha _beta _maximizing => evaluate_board E p
  | d + 1 => fun p alpha beta maximizing =>
    if E.is_game_over p then evaluate_board E p
    else if maximizing then
      abLoopMax E (fun q a b => alpha_beta_search E d q a b false) p beta
        (E.legal_moves p) ⊥ alpha
    else
      abLoopMin E (fun q a b => alpha_beta_search E d q a b true) p alpha
        (E.legal_moves p) ⊤ beta

/-- The unpruned full-width minimax search over the same game tree with the
same static evaluation, as worded by the spec's alpha-beta-equivalence
property: no bounds, every move of every node explored. -/
def minimax (E : RulesEngine) : Nat → E.Pos → Bool → Score
  | 0 => fun p _maximizing => evaluate_board E p
  | d + 1 => fun p maximizing =>
    if E.is_game_over p then evaluate_board E p
    else if maximizing then
      (E.legal_moves p).foldl (fun acc m => max acc (minimax E d (E.push p m) false)) ⊥
    else
      (E.legal_moves p).foldl (fun acc m => min acc (minimax E d (E.push p m) true)) ⊤

/-- The search value `find_best_move` computes for one root move: the
position after the push is searched with full bounds at `depth - 1`, the
maximizing flag being `board.turn == chess.BLACK` evaluated on the pushed
position (line 153 of the source). -/
def rootSearchValue (E : RulesEngine) (depth : Nat) (p : E.Pos) (m : E.Move) : Score :=
  alpha_beta_search E (depth - 1) (E.push p m) ⊥ ⊤
    (decide (E.turn (E.push p m) = false))

/-- The root loop of `find_best_move`: tracks `(best_move, best_value)`,
updating on strict improvement from the root mover's perspective. -/
def rootLoop (E : RulesEngine) (depth : Nat) (p : E.Pos) :
    List E.Move → Option E.Move × Score → Option E.Move × Score
  | [], acc => acc
  | m :: ms, acc =>
    let mv := rootSearchValue E depth p m
    let acc2 :=
      if E.turn p = true ∧ acc.2 < mv then (some m, mv)
      else if E.turn p = false ∧ mv < acc.2 then (some m, mv)
      else acc
    rootLoop E depth p ms acc2

/-- `ChessAI.find_best_move` on a position value.  `pick` models
`random.choice`; `none` models the `IndexError` the fallback raises on an
empty legal-move list. -/
def find_best_move (E : RulesEngine) (pick : List E.Move → E.Move) (depth : Nat)
    (p : E.Pos) : Option E.Move :=
  let moves := E.legal_moves p
  let r := rootLoop E depth p moves (none, if E.turn p = true then (⊥ : Score) else ⊤)
  match r.1 with
  | some m => some m
  | none => if moves.isEmpty then none else some (pick moves)

/-- The root move-value function driven by unpruned minimax instead of the
pruned search (same depth, same flag, same tree). -/
def rootSearchValueMM (E : RulesEngine) (depth : Nat) (p : E.Pos) (m : E.Move) : Score :=
  minimax E (depth - 1) (E.push p m) (decide (E.turn (E.push p m) = false))

/-- The root loop of `find_best_move` driven by unpruned minimax. -/
def rootLoopMM (E : RulesEngine) (depth : Nat) (p : E.Pos) :
    List E.Move → Option E.Move × Score → Option E.Move × Score
  | [], acc => acc
  | m :: ms, acc =>
    let mv := rootSearchValueMM E depth p m
    let acc2 :=
      if E.turn p = true ∧ acc.2 < mv then (some m, mv)
      else if E.turn p = false ∧ mv < acc.2 then (some m, mv)
      else acc
    rootLoopMM E depth p ms acc2

/-- `find_best_move` with the pruned search replaced by unpruned full-width
minimax, everything else identical (the spec's comparison point). -/
def find_best_moveMM (E : RulesEngine) (pick : List E.Move → E.Move) (depth : Nat)
    (p : E.Pos) : Option E.Move :=
  let moves := E.legal_moves p
  let r := rootLoopMM E depth p moves (none, if E.turn p = true then (⊥ : Score) else ⊤)
  match r.1 with
  | some m => some m
  | none => if moves.isEmpty then none else some (pick moves)

/-- The mutable python-chess board: a base position plus the stack of moves
pushed onto it (`board.move_stack`).  The full state the undo invariant
speaks about (board contents, side to move, move history, terminal flags)
is determined by this pair. -/
structure Board (E : RulesEngine) where
  base : E.Pos
  stack : List E.Move

/-- The position currently on the board. -/
def Board.cur {E : RulesEngine} (b : Board E) : E.Pos :=
  b.stack.foldl E.push b.base

/-- `board.push(move)`: appends to the move stack. -/
def Board.push {E : RulesEngine} (b : Board E) (m : E.Move) : Board E :=
  ⟨b.base, b.stack ++ [m]⟩

/-- `board.pop()`: removes the most recently pushed move. -/
def Board.pop {E : RulesEngine} (b : Board E) : Board E :=
  ⟨b.base, b.stack.dropLast⟩

/-- The maximizing move loop of `alpha_beta_search` acting on the mutable
board: push, recurse on the mutated board, pop, update, maybe break. -/
def abLoopMaxS (E : RulesEngine) (recur : Board E → Score → Score → Score × Board E)
    (beta : Score) :
    List E.Move → Board E → Score → Score → Score × Board E
  | [], b, maxEval, _alpha => (maxEval, b)
  | m :: ms, b, maxEval, alpha =>
    let r := recur (Board.push b m) alpha beta
    let b2 := Board.pop r.2
    let maxEval2 := max maxEval r.1
    let alpha2 := max alpha r.1
    if beta ≤ alpha2 then (maxEval2, b2)
    else abLoopMaxS E recur beta ms b2 maxEval2 alpha2

/-- The minimizing move loop of `alpha_beta_search` acting on the mutable
board. -/
def abLoopMinS (E : RulesEngine) (recur : Board E → Score → Score → Score × Board E)
    (alpha : Score) :
    List E.Move → Board E → Score → Score → Score × Board E
  | [], b, minEval, _beta => (minEval, b)
  | m :: ms, b, minEval, beta =>
    let r := recur (Board.push b m) alpha beta
    let b2 := Board.pop r.2
    let minEval2 := min minEval r.1
    let beta2 := min beta r.1
    if beta2 ≤ alpha then (minEval2, b2)
    else abLoopMinS E recur alpha ms b2 minEval2 beta2

/-- `ChessAI.alpha_beta_search` acting on the mutable board, returning the
score together with the board state it leaves behind. -/
def alpha_beta_searchS (E : RulesEngine) :
    Nat → Board E → Score → Score → Bool → Score × Board E
  | 0 => fun b _alpha _beta _maximizing => (evaluate_board E b.cur, b)
  | d + 1 => fun b alpha beta maximizing =>
    if E.is_game_over b.cur then (evaluate_board E b.cur, b)
    else if maximizing then
      abLoopMaxS E (fun c a bb => alpha_beta_searchS E d c a bb false) beta
        (E.legal_moves b.cur) b ⊥ alpha
    else
      abLoopMinS E (fun c a bb => alpha_beta_searchS E d c a bb true) alpha
        (E.legal_moves b.cur) b ⊤ beta

/-- The root loop of `find_best_move` acting on the mutable board: for each
legal move, push it, search the mutated board (reading the maximizing flag
off the pushed board), pop, and compare using the side to move of the
restored board. -/
def rootLoopS (E : RulesEngine) (depth : Nat) :
    List E.Move → Board E → Option E.Move × Score → (Option E.Move × Score) × Board E
  | [], b, acc => (acc, b)
  | m :: ms, b, acc =>
    let b1 := Board.push b m
    let r := alpha_beta_searchS E (depth - 1) b1 ⊥ ⊤ (decide (E.turn b1.cur = false))
    let b2 := Board.pop r.2
    let acc2 :=
      if E.turn b2.cur = true ∧ acc.2 < r.1 then (some m, r.1)
      else if E.turn b2.cur = false ∧ r.1 < acc.2 then (some m, r.1)
      else acc
    rootLoopS E depth ms b2 acc2

/-- `ChessAI.find_best_move` acting on the mutable board, returning the
selected move together with the board state it leaves behind. -/
def find_best_moveS (E : RulesEngine) (pick : List E.Move → E.Move) (depth : Nat)
    (b : Board E) : Option E.Move × Board E :=
  let moves := E.legal_moves b.cur
  let r := rootLoopS E depth moves b
    (none, if E.turn b.cur = true then (⊥ : Score) else ⊤)
  match r.1.1 with
  | some m => (some m, r.2)
  | none => if moves.isEmpty then (none, r.2) else (some (pick moves), r.2)

/-- The maximizing move loop with a child search that may run out of fuel. -/
def abLoopMaxO (E : RulesEngine) (recur : E.Pos → Score → Score → Option Score)
    (p : E.Pos) (beta : Score) :
    List E.Move → Score → Score → Option Score
  | [], maxEval, _alpha => some maxEval
  | m :: ms, maxEval, alpha =>
    match recur (E.push p m) alpha beta with
    | none => none
    | some ev =>
      let maxEval2 := max maxEval ev
      let alpha2 := max alpha ev
      if beta ≤ alpha2 then some maxEval2
      else abLoopMaxO E recur p beta ms maxEval2 alpha2

/-- The minimizing move loop with a child search that may run out of fuel. -/
def abLoopMinO (E : RulesEngine) (recur : E.Pos → Score → Score → Option Score)
    (p : E.Pos) (alpha : Score) :
    List E.Move → Score → Score → Option Score
  | [], minEval, _beta => some minEval
  | m :: ms, minEval, beta =>
    match recur (E.push p m) alpha beta with
    | none => none
    | some ev =>
      let minEval2 := min minEval ev
      let beta2 := min beta ev
      if beta2 ≤ alpha then some minEval2
      else abLoopMinO E recur p alpha ms minEval2 beta2

/-- `alpha_beta_search` instrumented with a fuel counter that decreases at
every recursive invocation, with the depth argument handled exactly as in
the source (`depth == 0 or game over` bottoms out, children searched at
`depth - 1`).  `none` marks running out of fuel, i.e. a recursion deeper
than the allotted number of nested calls. -/
def alpha_beta_searchFuel (E : RulesEngine) :
    Nat → Nat → E.Pos → Score → Score → Bool → Option Score
  | 0 => fun _depth _p _alpha _beta _maximizing => none
  | f + 1 => fun depth p alpha beta maximizing =>
    if depth = 0 ∨ E.is_game_over p = true then some (evaluate_board E p)
    else if maximizing then
      abLoopMaxO E (fun q a b => alpha_beta_searchFuel E f (depth - 1) q a b false) p beta
        (E.legal_moves p) ⊥ alpha
    else
      abLoopMinO E (fun q a b => alpha_beta_searchFuel E f (depth - 1) q a b true) p alpha
        (E.legal_moves p) ⊤ beta

/-- Legal-move table of the concrete test game `E_T`.  Positions are move
histories (`List Nat`), the empty history being the initial position. -/
def legalT (p : List Nat) : List Nat :=
  if p = [] then [0]
  else if p = [0] then [0, 1]
  else if p = [9, 9] then [0]
  else if p = [9, 9, 0] then [0]
  else []

/-- Checkmate table of the concrete test game `E_T`. -/
def checkmateT (p : List Nat) : Bool :=
  decide (p = [9, 9, 0, 0] ∨ p = [7])

/-- Stalemate table of the concrete test game `E_T`. -/
def stalemateT (p : List Nat) : Bool :=
  decide (p = [8])

/-- Piece table of the concrete test game `E_T`: one White pawn on a1 in the
position reached by the history `[0, 0]`, nothing anywhere else. -/
def piecesT (p : List Nat) (k : Piece) (c : Bool) : Finset (Fin 64) :=
  if p = [0, 0] ∧ k = Piece.pawn ∧ c = true then {(0 : Fin 64)} else ∅

/-- A small concrete rules engine (a finite abstract game satisfying the
rules-engine guarantees), used to evaluate the code on concrete inputs.
White moves first; the side to move alternates with the history length. -/
@[reducible] def E_T : RulesEngine where
  Pos := List Nat
  Move := Nat
  turn := fun p => decide (p.length % 2 = 0)
  legal_moves := legalT
  push := fun p m => p ++ [m]
  is_checkmate := checkmateT
  is_stalemate := stalemateT
  is_insufficient_material := fun _ => false
  is_seventyfive_moves := fun _ => false
  is_game_over := fun p => (legalT p).isEmpty
  pieces := piecesT
  turn_push := by
    intro p m
    show decide ((p ++ [m]).length % 2 = 0) = !decide (p.length % 2 = 0)
    simp only [List.length_append, List.length_singleton]
    by_cases h : p.length % 2 = 0
    · have h2 : ¬((p.length + 1) % 2 = 0) := by omega
      simp [h, h2]
    · have h2 : (p.length + 1) % 2 = 0 := by omega
      simp [h, h2]
  stalemate_not_checkmate := by
    intro p h
    have hp : p = [8] := by simpa [stalemateT] using h
    subst hp
    decide
  insufficient_not_checkmate := by
    intro p h
    simp at h
  seventyfive_not_checkmate := by
    intro p h
    simp at h
  no_moves_game_over := by
    intro p h
    simp [h]
  checkmate_no_moves := by
    intro p h
    have hp : p = [9, 9, 0, 0] ∨ p = [7] := by simpa [checkmateT] using h
    rcases hp with hp | hp <;> subst hp <;> decide

/-- The fallback selector used as the `random.choice` stand-in on concrete
runs of `E_T`. -/
def pickT : List Nat → Nat := fun l => l.headD 0

/-- Knuth-Moore relation between the result `g` of a fail-soft window search
and the true minimax value `v` under the window `(a, b)`: failing low bounds
`v` from above, failing high bounds it from below, and a result strictly
inside the window is exact. -/
abbrev KMrel (g v a b : Score) : Prop :=
  (g ≤ a → v ≤ g) ∧ (b ≤ g → g ≤ v) ∧ (a < g → g < b → g = v)

theorem foldl_max_shift {α : Type _} (f : α → Score) :
    ∀ (ms : List α) (e e' : Score),
      ms.foldl (fun acc m => max acc (f m)) (max e e') =
        max e (ms.foldl (fun acc m => max acc (f m)) e') := by
  intro ms
  induction ms with
  | nil => intro e e'; rfl
  | cons m ms ih =>
    intro e e'
    simp only [List.foldl_cons]
    rw [max_assoc, ih]

theorem foldl_max_eq_max {α : Type _} (f : α → Score) (ms : List α) (e : Score) :
    ms.foldl (fun acc m => max acc (f m)) e =
      max e (ms.foldl (fun acc m => max acc (f m)) ⊥) := by
  have h := foldl_max_shift f ms e ⊥
  rwa [max_eq_left bot_le] at h

theorem le_foldl_max {α : Type _} (f : α → Score) (ms : List α) (e : Score) :
    e ≤ ms.foldl (fun acc m => max acc (f m)) e := by
  rw [foldl_max_eq_max f ms e]
  exact le_max_left _ _

theorem foldl_max_mono {α : Type _} (f : α → Score) (ms : List α) {e e' : Score}
    (h : e ≤ e') :
    ms.foldl (fun acc m => max acc (f m)) e ≤ ms.foldl (fun acc m => max acc (f m)) e' := by
  rw [foldl_max_eq_max f ms e, foldl_max_eq_max f ms e']
  exact max_le_max h (le_refl _)

theorem foldl_min_shift {α : Type _} (f : α → Score) :
    ∀ (ms : List α) (e e' : Score),
      ms.foldl (fun acc m => min acc (f m)) (min e e') =
        min e (ms.foldl (fun acc m => min acc (f m)) e') := by
  intro ms
  induction ms with
  | nil => intro e e'; rfl
  | cons m ms ih =>
    intro e e'
    simp only [List.foldl_cons]
    rw [min_assoc, ih]

theorem foldl_min_eq_min {α : Type _} (f : α → Score) (ms : List α) (e : Score) :
    ms.foldl (fun acc m => min acc (f m)) e =
      min e (ms.foldl (fun acc m => min acc (f m)) ⊤) := by
  have h := foldl_min_shift f ms e ⊤
  rwa [min_eq_left le_top] at h

theorem foldl_min_le {α : Type _} (f : α → Score) (ms : List α) (e : Score) :
    ms.foldl (fun acc m => min acc (f m)) e ≤ e := by
  rw [foldl_min_eq_min f ms e]
  exact min_le_left _ _

theorem foldl_min_mono {α : Type _} (f : α → Score) (ms : List α) {e e' : Score}
    (h : e ≤ e') :
    ms.foldl (fun acc m => min acc (f m)) e ≤ ms.foldl (fun acc m => min acc (f m)) e' := by
  rw [foldl_min_eq_min f ms e, foldl_min_eq_min f ms e']
  exact min_le_min h (le_refl _)

theorem le_abLoopMax (E : RulesEngine) (recur : E.Pos → Score → Score → Score)
    (p : E.Pos) (beta : Score) :
    ∀ (ms : List E.Move) (e a : Score), e ≤ abLoopMax E recur p beta ms e a := by
  intro ms
  induction ms with
  | nil => intro e a; exact le_refl e
  | cons m ms ih =>
    intro e a
    simp only [abLoopMax]
    by_cases h : beta ≤ max a (recur (E.push p m) a beta)
    · rw [if_pos h]
      exact le_max_left _ _
    · rw [if_neg h]
      exact le_trans (le_max_left _ _) (ih _ _)

theorem abLoopMin_le (E : RulesEngine) (recur : E.Pos → Score → Score → Score)
    (p : E.Pos) (alpha : Score) :
    ∀ (ms : List E.Move) (e b : Score), abLoopMin E recur p alpha ms e b ≤ e := by
  intro ms
  induction ms with
  | nil => intro e b; exact le_refl e
  | cons m ms ih =>
    intro e b
    simp only [abLoopMin]
    by_cases h : min b (recur (E.push p m) alpha b) ≤ alpha
    · rw [if_pos h]
      exact min_le_left _ _
    · rw [if_neg h]
      exact le_trans (ih _ _) (min_le_left _ _)

theorem abLoopMax_km (E : RulesEngine) (recur : E.Pos → Score → Score → Score)
    (w : E.Move → Score) (p : E.Pos) (beta : Score) :
    ∀ (ms : List E.Move) (e a : Score),
      (∀ m ∈ ms, ∀ a' b', a' < b' → KMrel (recur (E.push p m) a' b') (w m) a' b') →
      e ≤ a → a < beta →
      KMrel (abLoopMax E recur p beta ms e a)
        (ms.foldl (fun acc m => max acc (w m)) e) a beta := by
  intro ms
  induction ms with
  | nil =>
    intro e a _ _ _
    exact ⟨fun _ => le_refl _, fun _ => le_refl _, fun _ _ => rfl⟩
  | cons m ms ih =>
    intro e a hrec hea hab
    obtain ⟨hc1, hc2, hc3⟩ := hrec m (List.mem_cons_self m ms) a beta hab
    simp only [abLoopMax, List.foldl_cons]
    set ev := recur (E.push p m) a beta with hev
    by_cases hcut : beta ≤ max a ev
    · rw [if_pos hcut]
      have hbev : beta ≤ ev := by
        rcases le_max_iff.mp hcut with h | h
        · exact absurd h (not_le.mpr hab)
        · exact h
      have hwev : ev ≤ w m := hc2 hbev
      have hgv : max e ev ≤ ms.foldl (fun acc x => max acc (w x)) (max e (w m)) :=
        le_trans (max_le_max (le_refl e) hwev) (le_foldl_max _ _ _)
      refine ⟨?_, ?_, ?_⟩
      · intro hga
        exact absurd (le_trans (le_trans hbev (le_max_right e ev)) hga) (not_le.mpr hab)
      · intro _
        exact hgv
      · intro _ hgb
        exact absurd (lt_of_le_of_lt (le_trans hbev (le_max_right e ev)) hgb)
          (lt_irrefl beta)
    · rw [if_neg hcut]
      have ha2b : max a ev < beta := not_le.mp hcut
      have hevb : ev < beta := lt_of_le_of_lt (le_max_right a ev) ha2b
      have he2a2 : max e ev ≤ max a ev := max_le_max hea (le_refl ev)
      obtain ⟨i1, i2, i3⟩ :=
        ih (max e ev) (max a ev) (fun m' hm' => hrec m' (List.mem_cons_of_mem m hm'))
          he2a2 ha2b
      have hge : max e ev ≤ abLoopMax E recur p beta ms (max e ev) (max a ev) :=
        le_abLoopMax E recur p beta ms (max e ev) (max a ev)
      rcases lt_or_le a ev with hav | hav
      · -- the child value lies inside the window, hence is exact
        have hevw : ev = w m := hc3 hav hevb
        rw [← hevw]
        refine ⟨?_, ?_, ?_⟩
        · intro hga
          exact i1 (le_trans hga (le_max_left a ev))
        · exact i2
        · intro hag hgb
          by_cases hag2 : max a ev < abLoopMax E recur p beta ms (max e ev) (max a ev)
          · exact i3 hag2 hgb
          · have hmaxev : max a ev = ev := max_eq_right (le_of_lt hav)
            have hGev : abLoopMax E recur p beta ms (max e ev) (max a ev) ≤ ev :=
              le_trans (not_lt.mp hag2) (le_of_eq hmaxev)
            have hv'leG :
                ms.foldl (fun acc x => max acc (w x)) (max e ev) ≤
                  abLoopMax E recur p beta ms (max e ev) (max a ev) :=
              i1 (le_trans hGev (le_max_right a ev))
            have hGlev' :
                abLoopMax E recur p beta ms (max e ev) (max a ev) ≤
                  ms.foldl (fun acc x => max acc (w x)) (max e ev) :=
              le_trans hGev (le_trans (le_max_right e ev) (le_foldl_max _ _ _))
            exact le_antisymm hGlev' hv'leG
      · -- the child value fails low: it bounds the true value from above
        have hwm : w m ≤ ev := hc1 hav
        have hmax_ae : max a ev = a := max_eq_left hav
        rw [hmax_ae] at i1 i2 i3 hge ⊢
        have hVV' :
            ms.foldl (fun acc x => max acc (w x)) (max e (w m)) ≤
              ms.foldl (fun acc x => max acc (w x)) (max e ev) :=
          foldl_max_mono _ _ (max_le_max (le_refl e) hwm)
        refine ⟨?_, ?_, ?_⟩
        · intro hga
          exact le_trans hVV' (i1 hga)
        · intro hbg
          have hevg : ev < abLoopMax E recur p beta ms (max e ev) a :=
            lt_of_le_of_lt hav (lt_of_lt_of_le hab hbg)
          have hGV' := i2 hbg
          rw [foldl_max_eq_max] at hGV'
          rcases le_max_iff.mp hGV' with h | h
          · rcases le_max_iff.mp h with h2 | h2
            · exact le_trans h2 (le_trans (le_max_left e (w m)) (le_foldl_max _ _ _))
            · exact absurd h2 (not_le.mpr hevg)
          · rw [foldl_max_eq_max]
            exact le_trans h (le_max_right _ _)
        · intro hag hgb
          have hGeqV' := i3 hag hgb
          have hevG : ev < abLoopMax E recur p beta ms (max e ev) a :=
            lt_of_le_of_lt hav hag
          have hGleV :
              abLoopMax E recur p beta ms (max e ev) a ≤
                ms.foldl (fun acc x => max acc (w x)) (max e (w m)) := by
            have h' : abLoopMax E recur p beta ms (max e ev) a ≤
                max (max e ev) (ms.foldl (fun acc x => max acc (w x)) ⊥) := by
              rw [← foldl_max_eq_max]
              exact le_of_eq hGeqV'
            rcases le_max_iff.mp h' with h | h
            · rcases le_max_iff.mp h with h2 | h2
              · exact le_trans h2 (le_trans (le_max_left e (w m)) (le_foldl_max _ _ _))
              · exact absurd h2 (not_le.mpr hevG)
            · rw [foldl_max_eq_max]
              exact le_trans h (le_max_right _ _)
          have hVleG :
              ms.foldl (fun acc x => max acc (w x)) (max e (w m)) ≤
                abLoopMax E recur p beta ms (max e ev) a :=
            le_trans hVV' (le_of_eq hGeqV'.symm)
          exact le_antisymm hGleV hVleG

theorem abLoopMin_km (E : RulesEngine) (recur : E.Pos → Score → Score → Score)
    (w : E.Move → Score) (p : E.Pos) (alpha : Score) :
    ∀ (ms : List E.Move) (e b : Score),
      (∀ m ∈ ms, ∀ a' b', a' < b' → KMrel (recur (E.push p m) a' b') (w m) a' b') →
      b ≤ e → alpha < b →
      KMrel (abLoopMin E recur p alpha ms e b)
        (ms.foldl (fun acc m => min acc (w m)) e) alpha b := by
  intro ms
  induction ms with
  | nil =>
    intro e b _ _ _
    exact ⟨fun _ => le_refl _, fun _ => le_refl _, fun _ _ => rfl⟩
  | cons m ms ih =>
    intro e b hrec hbe hab
    obtain ⟨hc1, hc2, hc3⟩ := hrec m (List.mem_cons_self m ms) alpha b hab
    simp only [abLoopMin, List.foldl_cons]
    set ev := recur (E.push p m) alpha b with hev
    by_cases hcut : min b ev ≤ alpha
    · rw [if_pos hcut]
      have haev : ev ≤ alpha := by
        rcases min_le_iff.mp hcut with h | h
        · exact absurd h (not_le.mpr hab)
        · exact h
      have hwev : w m ≤ ev := hc1 haev
      have hvg : ms.foldl (fun acc x => min acc (w x)) (min e (w m)) ≤ min e ev :=
        le_trans (foldl_min_le _ _ _) (min_le_min (le_refl e) hwev)
      refine ⟨?_, ?_, ?_⟩
      · intro _
        exact hvg
      · intro hbg
        exact absurd (le_trans hbg (le_trans (min_le_right e ev) haev)) (not_le.mpr hab)
      · intro hag _
        exact absurd (lt_of_lt_of_le hag (le_trans (min_le_right e ev) haev))
          (lt_irrefl alpha)
    · rw [if_neg hcut]
      have hab2 : alpha < min b ev := not_le.mp hcut
      have haev : alpha < ev := lt_of_lt_of_le hab2 (min_le_right b ev)
      have hb2e2 : min b ev ≤ min e ev := min_le_min hbe (le_refl ev)
      obtain ⟨i1, i2, i3⟩ :=
        ih (min e ev) (min b ev) (fun m' hm' => hrec m' (List.mem_cons_of_mem m hm'))
          hb2e2 hab2
      have hge : abLoopMin E recur p alpha ms (min e ev) (min b ev) ≤ min e ev :=
        abLoopMin_le E recur p alpha ms (min e ev) (min b ev)
      rcases lt_or_le ev b with hvb | hvb
      · -- the child value lies inside the window, hence is exact
        have hevw : ev = w m := hc3 haev hvb
        rw [← hevw]
        refine ⟨?_, ?_, ?_⟩
        · exact i1
        · intro hbg
          exact i2 (le_trans (min_le_left b ev) hbg)
        · intro hag hgb
          by_cases hg2 : abLoopMin E recur p alpha ms (min e ev) (min b ev) < min b ev
          · exact i3 hag hg2
          · have hminev : min b ev = ev := min_eq_right (le_of_lt hvb)
            have hevG : ev ≤ abLoopMin E recur p alpha ms (min e ev) (min b ev) :=
              le_trans (le_of_eq hminev.symm) (not_lt.mp hg2)
            have hGleV' :
                abLoopMin E recur p alpha ms (min e ev) (min b ev) ≤
                  ms.foldl (fun acc x => min acc (w x)) (min e ev) :=
              i2 (not_lt.mp hg2)
            have hV'leG :
                ms.foldl (fun acc x => min acc (w x)) (min e ev) ≤
                  abLoopMin E recur p alpha ms (min e ev) (min b ev) :=
              le_trans (le_trans (foldl_min_le _ _ _) (min_le_right e ev)) hevG
            exact le_antisymm hGleV' hV'leG
      · -- the child value fails high: it bounds the true value from below
        have hwm : ev ≤ w m := hc2 hvb
        have hmin_be : min b ev = b := min_eq_left hvb
        rw [hmin_be] at i1 i2 i3 hge ⊢
        have hV'V :
            ms.foldl (fun acc x => min acc (w x)) (min e ev) ≤
              ms.foldl (fun acc x => min acc (w x)) (min e (w m)) :=
          foldl_min_mono _ _ (min_le_min (le_refl e) hwm)
        refine ⟨?_, ?_, ?_⟩
        · intro hga
          have hevg : abLoopMin E recur p alpha ms (min e ev) b < ev :=
            lt_of_le_of_lt hga (lt_of_lt_of_le hab hvb)
          have hV'G := i1 hga
          rw [foldl_min_eq_min] at hV'G
          rcases min_le_iff.mp hV'G with h | h
          · rcases min_le_iff.mp h with h2 | h2
            · exact le_trans (le_trans (foldl_min_le _ _ _) (min_le_left e (w m))) h2
            · exact absurd h2 (not_le.mpr hevg)
          · rw [foldl_min_eq_min]
            exact le_trans (min_le_right _ _) h
        · intro hbg
          exact le_trans (i2 hbg) hV'V
        · intro hag hgb
          have hGeqV' := i3 hag hgb
          have hevG : abLoopMin E recur p alpha ms (min e ev) b < ev :=
            lt_of_lt_of_le hgb hvb
          have hVleG :
              ms.foldl (fun acc x => min acc (w x)) (min e (w m)) ≤
                abLoopMin E recur p alpha ms (min e ev) b := by
            have h' : min (min e ev) (ms.foldl (fun acc x => min acc (w x)) ⊤) ≤
                abLoopMin E recur p alpha ms (min e ev) b := by
              rw [← foldl_min_eq_min]
              exact le_of_eq hGeqV'.symm
            rcases min_le_iff.mp h' with h | h
            · rcases min_le_iff.mp h with h2 | h2
              · exact le_trans (le_trans (foldl_min_le _ _ _) (min_le_left e (w m))) h2
              · exact absurd h2 (not_le.mpr hevG)
            · rw [foldl_min_eq_min]
              exact le_trans (min_le_right _ _) h
          exact le_antisymm (le_trans (le_of_eq hGeqV') hV'V) hVleG

theorem alpha_beta_km (E : RulesEngine) :
    ∀ (d : Nat) (p : E.Pos) (a b : Score) (mx : Bool), a < b →
      KMrel (alpha_beta_search E d p a b mx) (minimax E d p mx) a b := by
  intro d
  induction d with
  | zero =>
    intro p a b mx hab
    exact ⟨fun _ => le_refl _, fun _ => le_refl _, fun _ _ => rfl⟩
  | succ d ih =>
    intro p a b mx hab
    simp only [alpha_beta_search, minimax]
    by_cases hgo : E.is_game_over p = true
    · rw [if_pos hgo, if_pos hgo]
      exact ⟨fun _ => le_refl _, fun _ => le_refl _, fun _ _ => rfl⟩
    · rw [if_neg hgo, if_neg hgo]
      cases mx with
      | true =>
        rw [if_pos rfl, if_pos rfl]
        exact abLoopMax_km E (fun q a' b' => alpha_beta_search E d q a' b' false)
          (fun m => minimax E d (E.push p m) false) p b (E.legal_moves p) ⊥ a
          (fun m _ a' b' hab' => ih (E.push p m) a' b' false hab') bot_le hab
      | false =>
        rw [if_neg Bool.false_ne_true, if_neg Bool.false_ne_true]
        exact abLoopMin_km E (fun q a' b' => alpha_beta_search E d q a' b' true)
          (fun m => minimax E d (E.push p m) true) p a (E.legal_moves p) ⊤ b
          (fun m _ a' b' hab' => ih (E.push p m) a' b' true hab') le_top hab

theorem alpha_beta_full_window (E : RulesEngine) (d : Nat) (p : E.Pos) (mx : Bool) :
    alpha_beta_search E d p ⊥ ⊤ mx = minimax E d p mx := by
  obtain ⟨h1, h2, h3⟩ := alpha_beta_km E d p ⊥ ⊤ mx (by decide)
  rcases lt_or_le (⊥ : Score) (alpha_beta_search E d p ⊥ ⊤ mx) with hgb | hgb
  · rcases lt_or_le (alpha_beta_search E d p ⊥ ⊤ mx) (⊤ : Score) with hgt | hgt
    · exact h3 hgb hgt
    · have hgtop : alpha_beta_search E d p ⊥ ⊤ mx = ⊤ := top_le_iff.mp hgt
      have hvtop : minimax E d p mx = ⊤ := top_le_iff.mp (le_trans hgt (h2 hgt))
      rw [hgtop, hvtop]
  · have hgbot : alpha_beta_search E d p ⊥ ⊤ mx = ⊥ := le_bot_iff.mp hgb
    have hvbot : minimax E d p mx = ⊥ := le_bot_iff.mp (le_trans (h1 hgb) hgb)
    rw [hgbot, hvbot]

theorem rootSearchValue_eq_mm (E : RulesEngine) (depth : Nat) (p : E.Pos) (m : E.Move) :
    rootSearchValue E depth p m = rootSearchValueMM E depth p m :=
  alpha_beta_full_window E (depth - 1) (E.push p m) _

theorem rootLoop_eq_mm (E : RulesEngine) (depth : Nat) (p : E.Pos) :
    ∀ (ms : List E.Move) (acc : Option E.Move × Score),
      rootLoop E depth p ms acc = rootLoopMM E depth p ms acc := by
  intro ms
  induction ms with
  | nil => intro acc; rfl
  | cons m ms ih =>
    intro acc
    simp only [rootLoop, rootLoopMM, rootSearchValue_eq_mm]
    exact ih _

theorem Board.cur_push {E : RulesEngine} (b : Board E) (m : E.Move) :
    (Board.push b m).cur = E.push b.cur m := by
  simp [Board.cur, Board.push, List.foldl_append]

theorem Board.pop_push {E : RulesEngine} (b : Board E) (m : E.Move) :
    (Board.push b m).pop = b := by
  cases b with
  | mk base stack =>
    simp [Board.push, Board.pop, List.dropLast_concat]

theorem abLoopMaxS_sim (E : RulesEngine)
    (recurS : Board E → Score → Score → Score × Board E)
    (recurP : E.Pos → Score → Score → Score)
    (hrec : ∀ (c : Board E) (a bb : Score), recurS c a bb = (recurP c.cur a bb, c))
    (beta : Score) :
    ∀ (ms : List E.Move) (b : Board E) (e a : Score),
      abLoopMaxS E recurS beta ms b e a = (abLoopMax E recurP b.cur beta ms e a, b) := by
  intro ms
  induction ms with
  | nil => intro b e a; rfl
  | cons m ms ih =>
    intro b e a
    simp only [abLoopMaxS, abLoopMax, hrec, Board.cur_push, Board.pop_push]
    by_cases h : beta ≤ max a (recurP (E.push b.cur m) a beta)
    · rw [if_pos h, if_pos h]
    · rw [if_neg h, if_neg h]
      exact ih b _ _

theorem abLoopMinS_sim (E : RulesEngine)
    (recurS : Board E → Score → Score → Score × Board E)
    (recurP : E.Pos → Score → Score → Score)
    (hrec : ∀ (c : Board E) (a bb : Score), recurS c a bb = (recurP c.cur a bb, c))
    (alpha : Score) :
    ∀ (ms : List E.Move) (b : Board E) (e bb : Score),
      abLoopMinS E recurS alpha ms b e bb = (abLoopMin E recurP b.cur alpha ms e bb, b) := by
  intro ms
  induction ms with
  | nil => intro b e bb; rfl
  | cons m ms ih =>
    intro b e bb
    simp only [abLoopMinS, abLoopMin, hrec, Board.cur_push, Board.pop_push]
    by_cases h : min bb (recurP (E.push b.cur m) alpha bb) ≤ alpha
    · rw [if_pos h, if_pos h]
    · rw [if_neg h, if_neg h]
      exact ih b _ _

theorem alpha_beta_searchS_sim (E : RulesEngine) :
    ∀ (d : Nat) (b : Board E) (a bb : Score) (mx : Bool),
      alpha_beta_searchS E d b a bb mx = (alpha_beta_search E d b.cur a bb mx, b) := by
  intro d
  induction d with
  | zero => intro b a bb mx; rfl
  | succ d ih =>
    intro b a bb mx
    simp only [alpha_beta_searchS, alpha_beta_search]
    by_cases hgo : E.is_game_over b.cur = true
    · rw [if_pos hgo, if_pos hgo]
    · rw [if_neg hgo, if_neg hgo]
      cases mx with
      | true =>
        rw [if_pos rfl, if_pos rfl]
        exact abLoopMaxS_sim E _ _ (fun c a' bb' => ih c a' bb' false) bb
          (E.legal_moves b.cur) b ⊥ a
      | false =>
        rw [if_neg Bool.false_ne_true, if_neg Bool.false_ne_true]
        exact abLoopMinS_sim E _ _ (fun c a' bb' => ih c a' bb' true) a
          (E.legal_moves b.cur) b ⊤ bb

theorem rootLoopS_sim (E : RulesEngine) (depth : Nat) :
    ∀ (ms : List E.Move) (b : Board E) (acc : Option E.Move × Score),
      rootLoopS E depth ms b acc = (rootLoop E depth b.cur ms acc, b) := by
  intro ms
  induction ms with
  | nil => intro b acc; rfl
  | cons m ms ih =>
    intro b acc
    simp only [rootLoopS, rootLoop, rootSearchValue, alpha_beta_searchS_sim,
      Board.cur_push, Board.pop_push]
    exact ih b _

theorem find_best_moveS_sim (E : RulesEngine) (pick : List E.Move → E.Move)
    (depth : Nat) (b : Board E) :
    find_best_moveS E pick depth b = (find_best_move E pick depth b.cur, b) := by
  simp only [find_best_moveS, find_best_move, rootLoopS_sim]
  rcases h : (rootLoop E depth b.cur (E.legal_moves b.cur)
      (none, if E.turn b.cur = true then (⊥ : Score) else ⊤)).1 with _ | m
  · simp only [h]
    by_cases he : (E.legal_moves b.cur).isEmpty
    · rw [if_pos he, if_pos he]
    · rw [if_neg he, if_neg he]
  · simp only [h]

theorem abLoopMaxO_sim (E : RulesEngine)
    (recurO : E.Pos → Score → Score → Option Score)
    (recurP : E.Pos → Score → Score → Score)
    (hrec : ∀ (q : E.Pos) (a bb : Score), recurO q a bb = some (recurP q a bb))
    (p : E.Pos) (beta : Score) :
    ∀ (ms : List E.Move) (e a : Score),
      abLoopMaxO E recurO p beta ms e a = some (abLoopMax E recurP p beta ms e a) := by
  intro ms
  induction ms with
  | nil => intro e a; rfl
  | cons m ms ih =>
    intro e a
    simp only [abLoopMaxO, abLoopMax, hrec]
    by_cases h : beta ≤ max a (recurP (E.push p m) a beta)
    · rw [if_pos h, if_pos h]
    · rw [if_neg h, if_neg h]
      exact ih _ _

theorem abLoopMinO_sim (E : RulesEngine)
    (recurO : E.Pos → Score → Score → Option Score)
    (recurP : E.Pos → Score → Score → Score)
    (hrec : ∀ (q : E.Pos) (a bb : Score), recurO q a bb = some (recurP q a bb))
    (p : E.Pos) (alpha : Score) :
    ∀ (ms : List E.Move) (e b : Score),
      abLoopMinO E recurO p alpha ms e b = some (abLoopMin E recurP p alpha ms e b) := by
  intro ms
  induction ms with
  | nil => intro e b; rfl
  | cons m ms ih =>
    intro e b
    simp only [abLoopMinO, abLoopMin, hrec]
    by_cases h : min b (recurP (E.push p m) alpha b) ≤ alpha
    · rw [if_pos h, if_pos h]
    · rw [if_neg h, if_neg h]
      exact ih _ _

theorem rootLoop_isSome (E : RulesEngine) (depth : Nat) (p : E.Pos) :
    ∀ (ms : List E.Move) (acc : Option E.Move × Score) (m0 : E.Move),
      acc.1 = some m0 → ∃ m1, (rootLoop E depth p ms acc).1 = some m1 := by
  intro ms
  induction ms with
  | nil => intro acc m0 h; exact ⟨m0, h⟩
  | cons m ms ih =>
    intro acc m0 h
    simp only [rootLoop]
    by_cases h1 : E.turn p = true ∧ acc.2 < rootSearchValue E depth p m
    · rw [if_pos h1]
      exact ih _ m rfl
    · rw [if_neg h1]
      by_cases h2 : E.turn p = false ∧ rootSearchValue E depth p m < acc.2
      · rw [if_pos h2]
        exact ih _ m rfl
      · rw [if_neg h2]
        exact ih _ m0 h

theorem rootLoop_mem (E : RulesEngine) (depth : Nat) (p : E.Pos) :
    ∀ (ms : List E.Move) (acc : Option E.Move × Score),
      (rootLoop E depth p ms acc).1 = acc.1 ∨
        ∃ m ∈ ms, (rootLoop E depth p ms acc).1 = some m := by
  intro ms
  induction ms with
  | nil => intro acc; exact Or.inl rfl
  | cons m ms ih =>
    intro acc
    simp only [rootLoop]
    by_cases h1 : E.turn p = true ∧ acc.2 < rootSearchValue E depth p m
    · rw [if_pos h1]
      rcases ih (some m, rootSearchValue E depth p m) with h | ⟨m', hm', h⟩
      · exact Or.inr ⟨m, List.mem_cons_self m ms, h⟩
      · exact Or.inr ⟨m', List.mem_cons_of_mem m hm', h⟩
    · rw [if_neg h1]
      by_cases h2 : E.turn p = false ∧ rootSearchValue E depth p m < acc.2
      · rw [if_pos h2]
        rcases ih (some m, rootSearchValue E depth p m) with h | ⟨m', hm', h⟩
        · exact Or.inr ⟨m, List.mem_cons_self m ms, h⟩
        · exact Or.inr ⟨m', List.mem_cons_of_mem m hm', h⟩
      · rw [if_neg h2]
        rcases ih acc with h | ⟨m', hm', h⟩
        · exact Or.inl h
        · exact Or.inr ⟨m', List.mem_cons_of_mem m hm', h⟩

theorem rootLoop_none_white (E : RulesEngine) (depth : Nat) (p : E.Pos)
    (hw : E.turn p = true) :
    ∀ ms : List E.Move,
      ((rootLoop E depth p ms (none, ⊥)).1 = none ↔
        ∀ m ∈ ms, rootSearchValue E depth p m = ⊥) := by
  intro ms
  induction ms with
  | nil => simp [rootLoop]
  | cons m ms ih =>
    simp only [rootLoop]
    by_cases hv : (⊥ : Score) < rootSearchValue E depth p m
    · have h1 : E.turn p = true ∧ ((none : Option E.Move), (⊥ : Score)).2 <
          rootSearchValue E depth p m := ⟨hw, hv⟩
      rw [if_pos h1]
      constructor
      · intro h
        obtain ⟨m1, hm1⟩ := rootLoop_isSome E depth p ms (some m, _) m rfl
        rw [hm1] at h
        cases h
      · intro h
        rw [h m (List.mem_cons_self m ms)] at hv
        exact absurd hv (lt_irrefl _)
    · have hveq : rootSearchValue E depth p m = ⊥ := le_bot_iff.mp (not_lt.mp hv)
      have h1 : ¬(E.turn p = true ∧ ((none : Option E.Move), (⊥ : Score)).2 <
          rootSearchValue E depth p m) := fun hc => hv hc.2
      rw [if_neg h1]
      have h2 : ¬(E.turn p = false ∧ rootSearchValue E depth p m <
          ((none : Option E.Move), (⊥ : Score)).2) := by
        intro hc
        rw [hw] at hc
        exact Bool.noConfusion hc.1
      rw [if_neg h2]
      rw [ih, List.forall_mem_cons]
      simp [hveq]

theorem rootLoop_none_black (E : RulesEngine) (depth : Nat) (p : E.Pos)
    (hb : E.turn p = false) :
    ∀ ms : List E.Move,
      ((rootLoop E depth p ms (none, ⊤)).1 = none ↔
        ∀ m ∈ ms, rootSearchValue E depth p m = ⊤) := by
  intro ms
  induction ms with
  | nil => simp [rootLoop]
  | cons m ms ih =>
    simp only [rootLoop]
    by_cases hv : rootSearchValue E depth p m < (⊤ : Score)
    · have h1 : ¬(E.turn p = true ∧ ((none : Option E.Move), (⊤ : Score)).2 <
          rootSearchValue E depth p m) := by
        intro hc
        rw [hb] at hc
        exact Bool.false_ne_true hc.1
      rw [if_neg h1]
      have h2 : E.turn p = false ∧ rootSearchValue E depth p m <
          ((none : Option E.Move), (⊤ : Score)).2 := ⟨hb, hv⟩
      rw [if_pos h2]
      constructor
      · intro h
        obtain ⟨m1, hm1⟩ := rootLoop_isSome E depth p ms (some m, _) m rfl
        rw [hm1] at h
        cases h
      · intro h
        rw [h m (List.mem_cons_self m ms)] at hv
        exact absurd hv (lt_irrefl _)
    · have hveq : rootSearchValue E depth p m = ⊤ := top_le_iff.mp (not_lt.mp hv)
      have h1 : ¬(E.turn p = true ∧ ((none : Option E.Move), (⊤ : Score)).2 <
          rootSearchValue E depth p m) := fun hc => hv (by
        rw [hveq] at hc
        exact absurd hc.2 (lt_irrefl _))
      rw [if_neg h1]
      have h2 : ¬(E.turn p = false ∧ rootSearchValue E depth p m <
          ((none : Option E.Move), (⊤ : Score)).2) := fun hc => hv hc.2
      rw [if_neg h2]
      rw [ih, List.forall_mem_cons]
      simp [hveq]

theorem alpha_beta_searchFuel_enough (E : RulesEngine) :
    ∀ (d : Nat) (p : E.Pos) (a b : Score) (mx : Bool),
      alpha_beta_searchFuel E (d + 1) d p a b mx =
        some (alpha_beta_search E d p a b mx) := by
  intro d
  induction d with
  | zero =>
    intro p a b mx
    simp only [alpha_beta_searchFuel, alpha_beta_search]
    rw [if_pos (Or.inl trivial)]
  | succ d ih =>
    intro p a b mx
    simp only [alpha_beta_searchFuel, alpha_beta_search, Nat.add_sub_cancel]
    by_cases hgo : E.is_game_over p = true
    · rw [if_pos (Or.inr hgo), if_pos hgo]
    · have hcond : ¬(d + 1 = 0 ∨ E.is_game_over p = true) := by
        intro h
        rcases h with h | h
        · exact Nat.succ_ne_zero d h
        · exact hgo h
      rw [if_neg hcond, if_neg hgo]
      cases mx with
      | true =>
        rw [if_pos rfl, if_pos rfl]
        exact abLoopMaxO_sim E _ _ (fun q a' b' => ih q a' b' false) p b
          (E.legal_moves p) ⊥ a
      | false =>
        rw [if_neg Bool.false_ne_true, if_neg Bool.false_ne_true]
        exact abLoopMinO_sim E _ _ (fun q a' b' => ih q a' b' true) p a
          (E.legal_moves p) ⊤ b

/-- Per-file doubled-pawn term as the spec words it: 10 points per pawn
beyond the first on the file, counted positive when Black has the
duplicates and negative when White has them (penalty subtracted from the
side with duplicates, forming a White-minus-Black differential). -/
def pawnFilePenalty (E : RulesEngine) (p : E.Pos) (f : Nat) : Int :=
  let wp := ((E.pieces p Piece.pawn true).filter (fun s => s.val % 8 = f)).card
  let bp := ((E.pieces p Piece.pawn false).filter (fun s => s.val % 8 = f)).card
  (if 1 < bp then 10 * ((bp : Int) - 1) else 0) -
    (if 1 < wp then 10 * ((wp : Int) - 1) else 0)

/-- The White-minus-Black doubled-pawn differential over the eight files,
as the spec words the pawn-structure term before any sign flip. -/
def pawnPenaltyDiffSpec (E : RulesEngine) (p : E.Pos) : Int :=
  ((List.range 8).map (pawnFilePenalty E p)).sum

theorem evaluate_pawn_structure_eq (E : RulesEngine) (p : E.Pos) :
    evaluate_pawn_structure E p =
      if E.turn p = true then pawnPenaltyDiffSpec E p else -pawnPenaltyDiffSpec E p := by
  have key : ∀ (l : List Nat) (sc : Int),
      l.foldl (fun sc f =>
        let wp := ((E.pieces p Piece.pawn true).filter (fun s => s.val % 8 = f)).card
        let bp := ((E.pieces p Piece.pawn false).filter (fun s => s.val % 8 = f)).card
        let sc2 := if 1 < wp then sc - 10 * ((wp : Int) - 1) else sc
        if 1 < bp then sc2 + 10 * ((bp : Int) - 1) else sc2) sc =
        sc + (l.map (pawnFilePenalty E p)).sum := by
    intro l
    induction l with
    | nil => intro sc; simp
    | cons f l ih =>
      intro sc
      simp only [List.foldl_cons, List.map_cons, List.sum_cons, ih]
      by_cases h1 : 1 < ((E.pieces p Piece.pawn true).filter (fun s => s.val % 8 = f)).card <;>
        by_cases h2 : 1 < ((E.pieces p Piece.pawn false).filter (fun s => s.val % 8 = f)).card <;>
        simp [pawnFilePenalty, h1, h2] <;> ring
  unfold evaluate_pawn_structure pawnPenaltyDiffSpec
  rw [key]
  simp

theorem square_mirror_involutive : ∀ s : Fin 64, square_mirror (square_mirror s) = s := by
  decide

/-- Claim C1 (amended): in `find_best_move`, every legal root move's search
runs on the position after that move is pushed, with bounds
`alpha = -infinity`, `beta = +infinity` and depth `depth - 1`, and with the
maximizing flag set to true exactly when the root mover is White: the code
computes the flag as `board.turn == chess.BLACK` only after the push, and
pushing flips the side to move. -/
theorem root_maximizing_flag_eq (E : RulesEngine) (depth : Nat) (p : E.Pos) (m : E.Move) :
    rootSearchValue E depth p m =
      alpha_beta_search E (depth - 1) (E.push p m) ⊥ ⊤ (E.turn p) := by
  unfold rootSearchValue
  rw [E.turn_push]
  cases h : E.turn p <;> simp

unseal Rat.add Rat.mul Rat.inv Rat.sub in
/-- Claim C1 as stated is false on the code: with White to move at the root
the maximizing flag passed to the first recursive level is true, not false.
On the test engine `E_T` at the initial position the value actually computed
(maximizing, 100) differs from the value the claimed flag (root mover is
Black, hence false) would give (minimizing, 0). -/
theorem root_maximizing_flag_cex :
    (0 : Nat) ∈ E_T.legal_moves [] ∧ E_T.turn [] = true ∧
      rootSearchValue E_T 2 [] 0 ≠
        alpha_beta_search E_T (2 - 1) (E_T.push [] 0) ⊥ ⊤
          (decide (E_T.turn [] = false)) :=
  ⟨by decide, by decide, by decide⟩

/-- Claim C2: for every rules engine, fallback selector, depth and position,
the move selected by `find_best_move` driving the alpha-beta pruned search
equals the move selected by the identical procedure driving an unpruned
full-width minimax search of the same depth over the same tree with the
same evaluation: pruning never changes the selected move. -/
theorem find_best_move_pruning_equiv (E : RulesEngine) (pick : List E.Move → E.Move)
    (depth : Nat) (p : E.Pos) :
    find_best_move E pick depth p = find_best_moveMM E pick depth p := by
  simp only [find_best_move, find_best_moveMM, rootLoop_eq_mm]

/-- Claim C3: a checkmate position evaluates to `-infinity` when it is
White's turn and `+infinity` when it is Black's turn (the sign chosen by
whose turn it is); a stalemate, insufficient-material or 75-move position
evaluates to exactly 0. -/
theorem evaluate_board_terminal_cases (E : RulesEngine) (p : E.Pos) :
    (E.is_checkmate p = true →
      evaluate_board E p = (if E.turn p = true then (⊥ : Score) else ⊤)) ∧
    ((E.is_stalemate p = true ∨ E.is_insufficient_material p = true ∨
        E.is_seventyfive_moves p = true) →
      evaluate_board E p = Score.fin 0) := by
  constructor
  · intro h
    unfold evaluate_board
    rw [if_pos h]
  · intro h
    have hcm : E.is_checkmate p = false := by
      rcases h with h | h | h
      · exact E.stalemate_not_checkmate p h
      · exact E.insufficient_not_checkmate p h
      · exact E.seventyfive_not_checkmate p h
    unfold evaluate_board
    rw [if_neg (by simp [hcm]), if_pos (by rcases h with h | h | h <;> simp [h])]

/-- Witness for C3 on the test engine: the checkmate position `[9,9,0,0]`
(White to move) evaluates to the checkmate sentinel of its turn, and the
stalemate position `[8]` evaluates to 0. -/
theorem evaluate_board_terminal_cases_w :
    evaluate_board E_T [9, 9, 0, 0] =
      (if E_T.turn [9, 9, 0, 0] = true then (⊥ : Score) else ⊤) ∧
      evaluate_board E_T [8] = Score.fin 0 :=
  ⟨(evaluate_board_terminal_cases E_T [9, 9, 0, 0]).1 (by decide),
   (evaluate_board_terminal_cases E_T [8]).2 (Or.inl (by decide))⟩

/-- Claim C4: the pawn-structure helper returns the White-minus-Black
doubled-pawn differential (10 points per pawn beyond the first per file,
subtracted from the side with duplicates) with the turn-based sign flip
applied internally, and on a non-terminal position `evaluate_board` applies
the top-level side-to-move flip to the whole sum that already contains the
internally flipped pawn term. -/
theorem evaluate_pawn_structure_double_flip (E : RulesEngine) (p : E.Pos) :
    evaluate_pawn_structure E p =
      (if E.turn p = true then pawnPenaltyDiffSpec E p else -pawnPenaltyDiffSpec E p) ∧
    (E.is_checkmate p = false → E.is_stalemate p = false →
      E.is_insufficient_material p = false → E.is_seventyfive_moves p = false →
      evaluate_board E p =
        Score.fin (if E.turn p = true then
            ((materialPstScore E p + evaluate_pawn_structure E p : Int) : ℚ) +
              evaluate_mobility E p
          else
            -(((materialPstScore E p + evaluate_pawn_structure E p : Int) : ℚ) +
              evaluate_mobility E p))) := by
  constructor
  · exact evaluate_pawn_structure_eq E p
  · intro h1 h2 h3 h4
    unfold evaluate_board
    rw [if_neg (by simp [h1]), if_neg (by simp [h2, h3, h4])]

/-- Witness for C4 at the non-terminal test position `[0,0]` (one White pawn
on a1, White to move). -/
theorem evaluate_pawn_structure_double_flip_w :
    evaluate_pawn_structure E_T [0, 0] =
      (if E_T.turn [0, 0] = true then pawnPenaltyDiffSpec E_T [0, 0]
        else -pawnPenaltyDiffSpec E_T [0, 0]) ∧
      evaluate_board E_T [0, 0] =
        Score.fin (if E_T.turn [0, 0] = true then
            ((materialPstScore E_T [0, 0] + evaluate_pawn_structure E_T [0, 0] : Int) : ℚ) +
              evaluate_mobility E_T [0, 0]
          else
            -(((materialPstScore E_T [0, 0] + evaluate_pawn_structure E_T [0, 0] : Int) : ℚ) +
              evaluate_mobility E_T [0, 0])) :=
  ⟨(evaluate_pawn_structure_double_flip E_T [0, 0]).1,
   (evaluate_pawn_structure_double_flip E_T [0, 0]).2 (by decide) (by decide)
     (by decide) (by decide)⟩

/-- Claim C5: after `find_best_move` returns, the board's full state (base
position and move stack, hence board contents, side to move, move history
and terminal flags) is identical to its state before the call: every push
performed at the root and inside every recursive branch is undone. -/
theorem find_best_move_restores_position (E : RulesEngine) (pick : List E.Move → E.Move)
    (depth : Nat) (b : Board E) :
    (find_best_moveS E pick depth b).2 = b := by
  rw [find_best_moveS_sim]

unseal Rat.add Rat.mul Rat.inv Rat.sub in
/-- Claim C6 as stated is false on the code: on the test engine the position
`[9,9]` is White to move with one legal move, yet that move's search value
is `-infinity`, so no iteration of the root loop sets `best_move` and the
random fallback is reached despite a nonempty legal-move set. -/
theorem root_loop_fallback_cex :
    E_T.legal_moves [9, 9] ≠ [] ∧
      (rootLoop E_T 2 [9, 9] (E_T.legal_moves [9, 9])
        (none, if E_T.turn [9, 9] = true then (⊥ : Score) else ⊤)).1 = none :=
  ⟨by decide, by decide⟩

/-- Claim C6 (amended): the root loop of `find_best_move` fails to set
`best_move` exactly when every legal root move's search value equals the
initial sentinel (`-infinity` when White is to move, `+infinity` when
Black is to move); a position with zero legal moves is one such case, but
not the only one. -/
theorem root_loop_none_iff_sentinel (E : RulesEngine) (depth : Nat) (p : E.Pos) :
    (rootLoop E depth p (E.legal_moves p)
        (none, if E.turn p = true then (⊥ : Score) else ⊤)).1 = none ↔
      ∀ m ∈ E.legal_moves p,
        rootSearchValue E depth p m = (if E.turn p = true then (⊥ : Score) else ⊤) := by
  cases hw : E.turn p with
  | false => simpa [hw] using rootLoop_none_black E depth p hw (E.legal_moves p)
  | true => simpa [hw] using rootLoop_none_white E depth p hw (E.legal_moves p)

unseal Rat.add Rat.mul Rat.inv Rat.sub in
/-- Witness for C6 (amended) on the test engine at `[9,9]`: every legal root
move's value is the sentinel, so the loop leaves `best_move` unset. -/
theorem root_loop_none_iff_sentinel_w :
    (rootLoop E_T 2 [9, 9] (E_T.legal_moves [9, 9])
        (none, if E_T.turn [9, 9] = true then (⊥ : Score) else ⊤)).1 = none :=
  (root_loop_none_iff_sentinel E_T 2 [9, 9]).mpr (by decide)

/-- Claim C7: on a position whose legal-move set is empty, `find_best_move`
does not return a move: the root loop runs zero iterations and the
`random.choice` fallback fails on the empty sequence (modelled as `none`). -/
theorem find_best_move_empty_none (E : RulesEngine) (pick : List E.Move → E.Move)
    (depth : Nat) (p : E.Pos) (h : E.legal_moves p = []) :
    find_best_move E pick depth p = none := by
  unfold find_best_move
  rw [h]
  rfl

/-- Witness for C7 on the test engine at the stalemate position `[8]`, which
has no legal moves. -/
theorem find_best_move_empty_none_w :
    find_best_move E_T pickT 2 [8] = none :=
  find_best_move_empty_none E_T pickT 2 [8] (by decide)

/-- Claim C8: a White piece of any kind on square `s` and a Black piece of
the same kind on the vertically mirrored square contribute positional terms
of equal magnitude and opposite sign to the White-minus-Black differential
`pstWhiteSum - pstBlackSum` accumulated by `evaluate_board`, the mirror map
being its own inverse. -/
theorem pst_mirror_contrib (k : Piece) (s : Fin 64) (W B : Finset (Fin 64))
    (hW : s ∉ W) (hB : square_mirror s ∉ B) :
    (pstWhiteSum k (insert s W) - pstBlackSum k B =
        pstWhiteSum k W - pstBlackSum k B + pstAt k s) ∧
    (pstWhiteSum k W - pstBlackSum k (insert (square_mirror s) B) =
        pstWhiteSum k W - pstBlackSum k B - pstAt k s) ∧
    square_mirror (square_mirror s) = s := by
  refine ⟨?_, ?_, square_mirror_involutive s⟩
  · unfold pstWhiteSum
    rw [Finset.sum_insert hW]
    ring
  · unfold pstBlackSum
    rw [Finset.sum_insert hB, square_mirror_involutive s]
    ring

/-- Witness for C8: a White knight on b1 and a Black knight on the mirrored
square b8 shift the differential by `+pstAt knight b1` and `-pstAt knight b1`
respectively. -/
theorem pst_mirror_contrib_w :
    (pstWhiteSum Piece.knight (insert 1 ∅) - pstBlackSum Piece.knight ∅ =
        pstWhiteSum Piece.knight ∅ - pstBlackSum Piece.knight ∅ + pstAt Piece.knight 1) ∧
    (pstWhiteSum Piece.knight ∅ - pstBlackSum Piece.knight (insert (square_mirror 1) ∅) =
        pstWhiteSum Piece.knight ∅ - pstBlackSum Piece.knight ∅ - pstAt Piece.knight 1) ∧
    square_mirror (square_mirror 1) = 1 :=
  pst_mirror_contrib Piece.knight 1 ∅ ∅ (by decide) (by decide)

/-- Claim C9: `alpha_beta_search` terminates for every depth `>= 0`: a fuel
budget of `depth + 1` nested invocations is never exhausted, because every
recursive call passes `depth - 1` and the recursion bottoms out at depth 0
or at a game-over position, returning the value of the unbounded search. -/
theorem alpha_beta_search_fuel_terminates (E : RulesEngine) (d : Nat) (p : E.Pos)
    (a b : Score) (mx : Bool) :
    alpha_beta_searchFuel E (d + 1) d p a b mx =
      some (alpha_beta_search E d p a b mx) :=
  alpha_beta_searchFuel_enough E d p a b mx

/-- Claim C10: on a position with at least one legal move, and with a
fallback selector that (like `random.choice`) returns an element of its
list, `find_best_move` returns some move belonging to the legal-move set. -/
theorem find_best_move_mem_legal (E : RulesEngine) (pick : List E.Move → E.Move)
    (depth : Nat) (p : E.Pos) (hne : E.legal_moves p ≠ [])
    (hpick : pick (E.legal_moves p) ∈ E.legal_moves p) :
    ∃ m, find_best_move E pick depth p = some m ∧ m ∈ E.legal_moves p := by
  unfold find_best_move
  rcases rootLoop_mem E depth p (E.legal_moves p)
      (none, if E.turn p = true then (⊥ : Score) else ⊤) with h | ⟨m, hm, h⟩
  · simp only [h]
    have hemp : ¬((E.legal_moves p).isEmpty = true) := by
      intro hc
      exact hne (List.isEmpty_iff.mp hc)
    rw [if_neg hemp]
    exact ⟨pick (E.legal_moves p), rfl, hpick⟩
  · simp only [h]
    exact ⟨m, rfl, hm⟩

unseal Rat.add Rat.mul Rat.inv Rat.sub in
/-- Witness for C10 on the test engine at the initial position: the selected
move is the unique legal move 0. -/
theorem find_best_move_mem_legal_w :
    find_best_move E_T pickT 2 [] = some 0 ∧ (0 : Nat) ∈ E_T.legal_moves [] := by
  obtain ⟨m, hm, hmem⟩ := find_best_move_mem_legal E_T pickT 2 [] (by decide) (by decide)
  exact ⟨by decide, by decide⟩
